import Mathlib

/-!
Verification of the netmd-js query utilities (src/queryutils.ts): the
format-string codec (formatQuery / scanQuery) and the BCD helpers
(BCD2int / int2BCD), embedded shallowly in Lean.

Modelling conventions, chosen to mirror the JavaScript/JSBI semantics:
* a JS string is represented by the list of its character codes (List Nat);
  the helper stringToCharCodeArray from ./utils (not part of src/) is the
  identity under this representation, and String.fromCharCode is as well;
* a JSBI arbitrary-precision integer is an Int; JSBI.signedRightShift is an
  arithmetic shift (floor division by a power of two) and JSBI.bitwiseAnd
  with 0xff takes the low byte of the two's-complement value, i.e. emod 256;
* the final new Uint8Array(result) conversion truncates every pushed number
  to its low 8 bits (ToUint8); a NaN pushed by a literal whose first format
  character is not a hex digit becomes 0, so pushed values are Option Nat
  with none standing for NaN;
* JS errors (assert failures, thrown Errors, JSBI.BigInt on undefined) are
  Except errors carrying the data the message interpolates.
-/

/-- Value is the union type of arguments accepted by formatQuery and of
results produced by scanQuery: a JSBI/number integer, a string (as its
character codes), or a Uint8Array (as its bytes). -/
inductive Value where
  | int (n : Int)
  | str (codes : List Nat)
  | bytes (bs : List Nat)
deriving DecidableEq, Repr

/-- Errors thrown by formatQuery: the assert that half is null at an escape
marker, the JSBI.BigInt coercion failure (e.g. on undefined when the
argument queue is empty, or a non-numeric argument), the assertString
failure for the x and s tokens, the unexpected-type assert of the * token,
and the unrecognized-format-char assert. -/
inductive FmtErr where
  | halfAssert
  | coerce
  | notAString
  | badStarArg
  | unrecognized (c : Char)
deriving DecidableEq, Repr

/-- Errors thrown by scanQuery: the assert that half is null at an escape
marker, the JSBI.BigInt coercion failure on undefined (input underflow in a
fixed-width token), a literal-byte mismatch (offset as computed by the
source, expected value with none for NaN, actual byte with none for
undefined), the unrecognized-format-char error, and the trailing
bytes-remaining assert with the number of unparsed bytes. -/
inductive ScanErr where
  | halfAssert
  | bigIntUndefined
  | mismatch (offset : Int) (expected : Option Nat) (got : Option Nat)
  | unrecognized (c : Char)
  | bytesRemaining (n : Nat)
deriving DecidableEq, Repr

/-- Hexadecimal value of a single character, as accepted by JS parseInt with
radix 16; none for a non-hex-digit character. -/
def hexVal? (c : Char) : Option Nat :=
  if '0' ≤ c ∧ c ≤ '9' then some (c.toNat - '0'.toNat)
  else if 'a' ≤ c ∧ c ≤ 'f' then some (c.toNat - 'a'.toNat + 10)
  else if 'A' ≤ c ∧ c ≤ 'F' then some (c.toNat - 'A'.toNat + 10)
  else none

/-- Number.parseInt(half + char, 16): parses the longest hex-digit prefix of
the two-character string; none models NaN (no leading hex digit). If only
the first character is a hex digit its value alone is parsed. The exotic
parseInt corner cases (sign characters, a literal 0x prefix) do not arise
for the format strings any claim is about and are not modelled. -/
def parseHexPair (h c : Char) : Option Nat :=
  match hexVal? h with
  | none => none
  | some a =>
    match hexVal? c with
    | some b => some (16 * a + b)
    | none => some a

/-- ToUint8 of the Uint8Array constructor applied to one pushed element:
NaN (none) becomes 0, a number is truncated to its low 8 bits. -/
def toUint8 : Option Nat → Nat
  | none => 0
  | some n => n % 256

/-- FORMAT_TYPE_LEN_DICT from the source: widths of the fixed-width integer
tokens in bytes. -/
def FORMAT_TYPE_LEN_DICT (c : Char) : Option Nat :=
  if c = 'b' then some 1
  else if c = 'w' then some 2
  else if c = 'd' then some 4
  else if c = 'q' then some 8
  else none

/-- JSBI.signedRightShift on an arbitrary-precision two's-complement
integer: an arithmetic shift, kept in the constructor form of Int so that
it computes by rfl. On non-negative n it is division by 2 ^ k. -/
def jsbiShr (n : Int) (k : Nat) : Int :=
  match n with
  | .ofNat m => .ofNat (m >>> k)
  | .negSucc m => .negSucc (m >>> k)

/-- JSBI.bitwiseAnd of a two's-complement arbitrary-precision integer with
0xff: the low byte, i.e. the non-negative residue modulo 256. -/
def jsbiAnd255 (n : Int) : Int := n % 256

/-- Byte emission loop of formatQuery for a fixed-width token: for byte
index from width - 1 down to 0, push (value >> (8 * byte)) & 0xff.
JSBI.toNumber is exact here since the masked value lies in [0, 256). -/
def encBytes : Nat → Int → List Nat
  | 0, _ => []
  | w + 1, n => (jsbiAnd255 (jsbiShr n (8 * w))).toNat :: encBytes w n

/-- Modelled from the spec: stringToCharCodeArray is imported from
./utils, which is not part of src/; the spec says string tokens emit the
raw character codes, each as one byte of 8-bit-clean text, so under the
representation of a string as the list of its character codes the function
is the identity. -/
def stringToCharCodeArray (s : List Nat) : List Nat := s

/-- One escaped-character step of formatQuery. The argument queue is popped
first (JS shift, undefined when empty, modelled by head?); then the token
character is dispatched exactly in source order: fixed-width integer,
then x/s, then *, else the unrecognized-format-char assert. JSBI.BigInt
succeeds on integer arguments; on undefined or the other Value shapes the
coercion throws (string arguments that happen to parse as numerals are not
exercised by any claim and are modelled as the same coercion failure). -/
def formatTok (c : Char) (args : List Value) : Except FmtErr (List Value × List Nat) :=
  let value := args.head?
  let args2 := args.tail
  match FORMAT_TYPE_LEN_DICT c with
  | some width =>
    match value with
    | some (.int n) => .ok (args2, encBytes width n)
    | _ => .error .coerce
  | none =>
    if c = 'x' ∨ c = 's' then
      match value with
      | some (.str cs) =>
        let len := cs.length + (if c = 's' then 1 else 0)
        .ok (args2, ((len >>> 8) &&& 255) ::
          (((len &&& 255)) :: (stringToCharCodeArray cs ++ (if c = 's' then [0] else []))))
      | _ => .error .notAString
    else if c = '*' then
      match value with
      | some (.str cs) => .ok (args2, stringToCharCodeArray cs)
      | some (.bytes bs) => .ok (args2, bs)
      | _ => .error .badStarArg
    else .error (.unrecognized c)

/-- Main loop of formatQuery over the format characters. The escaped flag
of the source is represented by consuming the character after a percent
sign in the same step; a percent sign as the last character leaves the
dangling escaped flag set, the loop ends and the buffer is returned, which
is the first match arm on the empty remainder. half holds a pending first
hex digit of a literal byte pair. -/
def formatGo : List Char → Option Char → List Value → List (Option Nat) → Except FmtErr (List (Option Nat))
  | [], _, _, acc => .ok acc
  | c :: rest, half, args, acc =>
    if c = '%' then
      match half with
      | some _ => .error .halfAssert
      | none =>
        match rest with
        | [] => .ok acc
        | c2 :: rest2 =>
          match formatTok c2 args with
          | .error e => .error e
          | .ok (args2, bs) => formatGo rest2 none args2 (acc ++ bs.map some)
    else if c = ' ' then
      formatGo rest half args acc
    else
      match half with
      | none => formatGo rest (some c) args acc
      | some h => formatGo rest none args (acc ++ [parseHexPair h c])

/-- formatQuery: run the format loop on the character sequence of the
format string with the argument queue, then convert the pushed numbers
through the Uint8Array constructor (ToUint8 per element). -/
def formatQuery (format : List Char) (args : List Value) : Except FmtErr (List Nat) :=
  (formatGo format none args []).map (List.map toUint8)

/-- Byte consumption loop of scanQuery for a fixed-width token: for byte
index from width - 1 down to 0, shift the next input byte left by 8 * byte
and or it into the accumulator. The input bytes are non-negative, so the
JSBI value stays non-negative and is modelled as a Nat; shifting an empty
input (JS shift returning undefined) makes JSBI.BigInt throw, modelled by
none. -/
def decBytes : Nat → Nat → List Nat → Option (Nat × List Nat)
  | 0, value, input => some (value, input)
  | _ + 1, _, [] => none
  | w + 1, value, b :: input => decBytes w (value ||| (b <<< (8 * w))) input

/-- One escaped-character step of scanQuery, dispatched in source order:
the skip token, fixed-width integers, then s/x, then *, then the hash
token, else the unrecognized-format-char error. For s/x the two length
bytes are popped (undefined behaving as 0 under the JS shift/or, which for
byte-valued inputs is 256 * b0 + b1), the declared count of bytes is
spliced off, and for s the final character is dropped. -/
def scanTok (c : Char) (input : List Nat) : Except ScanErr (List Nat × List Value) :=
  if c = '?' then .ok (input.tail, [])
  else
    match FORMAT_TYPE_LEN_DICT c with
    | some width =>
      match decBytes width 0 input with
      | some (value, rest) => .ok (rest, [.int (value : Int)])
      | none => .error .bigIntUndefined
    | none =>
      if c = 's' ∨ c = 'x' then
        let b0 := input.head?.getD 0
        let rest1 := input.tail
        let b1 := rest1.head?.getD 0
        let rest2 := rest1.tail
        let len := b0 * 256 + b1
        let value := rest2.take len
        let rest3 := rest2.drop len
        .ok (rest3, [.str (if c = 's' then value.dropLast else value)])
      else if c = '*' then .ok ([], [.str input])
      else if c = '#' then .ok ([], [.bytes input])
      else .error (.unrecognized c)

/-- Literal verification step of scanQuery: the next input byte is shifted
off (undefined when the input is exhausted), then compared with the parsed
format value with the loose JS inequality, under which NaN (none) differs
from everything and a number differs from undefined; a mismatch reports
the offset initialLength - remaining - 1 together with the expected and
actual values. -/
def scanLit (fv? : Option Nat) (input : List Nat) (init : Nat) : Except ScanErr (List Nat) :=
  match fv?, input with
  | some fv, iv :: input2 =>
    if fv = iv then .ok input2
    else .error (.mismatch ((init : Int) - input2.length - 1) (some fv) (some iv))
  | some fv, [] => .error (.mismatch ((init : Int) - 1) (some fv) none)
  | none, _ => .error (.mismatch ((init : Int) - input.tail.length - 1) none input.head?)

/-- Main loop of scanQuery over the format characters, mirroring
formatGo. init is the initial input length, used only for the byte offset
reported by a literal mismatch: initialLength - remaining - 1, computed
after the input byte has been shifted off. A literal whose parsed format
value is NaN (none) never equals the input byte; an exhausted input yields
undefined (none) for the actual byte and also mismatches. After the format
is consumed the input must be empty, else the bytes-remaining assert
fires. -/
def scanGo : List Char → List Nat → Nat → Option Char → List Value → Except ScanErr (List Value)
  | [], input, _, _, acc =>
    if input.isEmpty then .ok acc else .error (.bytesRemaining input.length)
  | c :: rest, input, init, half, acc =>
    if c = '%' then
      match half with
      | some _ => .error .halfAssert
      | none =>
        match rest with
        | [] => if input.isEmpty then .ok acc else .error (.bytesRemaining input.length)
        | c2 :: rest2 =>
          match scanTok c2 input with
          | .error e => .error e
          | .ok (input2, vs) => scanGo rest2 input2 init none (acc ++ vs)
    else if c = ' ' then
      scanGo rest input init half acc
    else
      match half with
      | none => scanGo rest input init (some c) acc
      | some h =>
        match scanLit (parseHexPair h c) input init with
        | .ok input2 => scanGo rest input2 init none acc
        | .error e => .error e

/-- scanQuery: run the scan loop on the byte sequence of the query buffer
with the format characters, remembering the initial length for mismatch
offsets. -/
def scanQuery (query : List Nat) (format : List Char) : Except ScanErr (List Value) :=
  scanGo format query query.length none []

/-- Loop of BCD2int. Each iteration applies the JS 32-bit operations
bcd & 0xf (an Int32 conversion followed by the low nibble, which for a
non-negative bcd is bcd % 2^32 % 16) and bcd >>> 4 (a Uint32 conversion
followed by the shift, i.e. bcd % 2^32 / 16), accumulating
nibbleValue * 10 ^ nibble. -/
def BCD2intGo (bcd nibble value : Nat) : Nat :=
  if h : bcd = 0 then value
  else BCD2intGo (bcd % 2 ^ 32 / 16) (nibble + 1) (value + bcd % 2 ^ 32 % 16 * 10 ^ nibble)
termination_by bcd
decreasing_by
  have h1 : bcd % 2 ^ 32 ≤ bcd := Nat.mod_le _ _
  have h2 : bcd % 2 ^ 32 / 16 ≤ bcd / 16 := Nat.div_le_div_right h1
  have h3 : bcd / 16 < bcd := Nat.div_lt_self (Nat.pos_of_ne_zero h) (by norm_num)
  exact Nat.lt_of_le_of_lt h2 h3

/-- BCD2int from the source: interpret the nibbles of the argument as
decimal digits, least significant first. -/
def BCD2int (bcd : Nat) : Nat := BCD2intGo bcd 0 0

/-- Range error data of int2BCD: either the length guard or the value
guard fired, carrying what the thrown message interpolates. -/
inductive BCDErr where
  | unsupportedLength
  | cannotFit (value : Nat) (length : Nat)
deriving DecidableEq, Repr

/-- ToInt32: reinterpret an integer modulo 2^32 as a signed 32-bit value. -/
def toInt32 (n : Int) : Int := (n + 2 ^ 31) % 2 ^ 32 - 2 ^ 31

/-- The JS bitwise-or on numbers: both operands are converted with ToInt32
(whose residue modulo 2^32 is the operand's residue), the 32-bit patterns
are or-ed, and the result is read back as a signed 32-bit value. -/
def jsOr32 (a b : Int) : Int :=
  toInt32 (((a % 2 ^ 32).toNat ||| (b % 2 ^ 32).toNat : Nat) : Int)

/-- The JS left shift on numbers: the shift amount is taken modulo 32, the
operand is converted to 32 bits, shifted, and the result is read back as a
signed 32-bit value. -/
def jsShl32 (a : Int) (k : Nat) : Int := toInt32 (a * 2 ^ (k % 32))

/-- Loop of int2BCD: extract value % 10 as the next nibble (least
significant first), or it into the accumulator shifted left by 4 * nibble
with the JS 32-bit operators, and divide the value by 10 until zero. -/
def int2BCDGo (value nibble : Nat) (bcd : Int) : Int :=
  if h : value = 0 then bcd
  else int2BCDGo (value / 10) (nibble + 1) (jsOr32 bcd (jsShl32 ((value % 10 : Nat) : Int) (4 * nibble)))
termination_by value
decreasing_by
  exact Nat.div_lt_self (Nat.pos_of_ne_zero h) (by norm_num)

/-- int2BCD from the source: fail when length exceeds 4, fail when the
value does not fit in length * 2 decimal digits, else pack the decimal
digits into nibbles. -/
def int2BCD (value : Nat) (length : Nat := 1) : Except BCDErr Int :=
  if length > 4 then .error .unsupportedLength
  else if value > 10 ^ (length * 2) - 1 then .error (.cannotFit value length)
  else .ok (int2BCDGo value 0 0)

/-- Returns true when an Except is a success. -/
def exOk : Except ε α → Bool
  | .ok _ => true
  | .error _ => false

/-!
Token-level apparatus for the claims about well-formed formats: the six
argument-consuming tokens, literal byte pairs, the matching relation
between a format and an argument list, and the bytes the encoder emits for
them.
-/

/-- The six typed tokens that consume one argument on encode and produce
one value on decode. -/
inductive Tok where
  | b | w | d | q | x | s
deriving DecidableEq, Repr

/-- Format character of a token. -/
def Tok.char : Tok → Char
  | .b => 'b'
  | .w => 'w'
  | .d => 'd'
  | .q => 'q'
  | .x => 'x'
  | .s => 's'

/-- Boolean test that an argument matches a token: an integer that is
representable in the token's width for b/w/d/q, an 8-bit-clean string
whose length survives the 2-byte length prefix for x/s. -/
def Tok.matchesB : Tok → Value → Bool
  | .b, .int n => decide (0 ≤ n ∧ n < 2 ^ 8)
  | .w, .int n => decide (0 ≤ n ∧ n < 2 ^ 16)
  | .d, .int n => decide (0 ≤ n ∧ n < 2 ^ 32)
  | .q, .int n => decide (0 ≤ n ∧ n < 2 ^ 64)
  | .x, .str cs => cs.all (fun a => decide (a < 256)) && decide (cs.length < 65536)
  | .s, .str cs => cs.all (fun a => decide (a < 256)) && decide (cs.length + 1 < 65536)
  | _, _ => false

/-- Propositional form of Tok.matchesB. -/
def Tok.matches (t : Tok) (v : Value) : Prop := t.matchesB v = true

/-- Tok.matches is decidable, being a boolean test. -/
instance (t : Tok) (v : Value) : Decidable (Tok.matches t v) :=
  inferInstanceAs (Decidable (t.matchesB v = true))

/-- An element of a well-formed format: a typed token or a literal byte
(rendered as two hex digits). -/
inductive FItem where
  | tok (t : Tok)
  | lit (b : Nat)
deriving DecidableEq, Repr

/-- Boolean matching of an argument list against a format item list:
tokens consume one matching argument each, literal bytes consume none and
must be byte-valued. -/
def itemsMatchB : List FItem → List Value → Bool
  | [], [] => true
  | [], _ :: _ => false
  | .tok _ :: _, [] => false
  | .tok t :: is, v :: vs => t.matchesB v && itemsMatchB is vs
  | .lit a :: is, vs => decide (a < 256) && itemsMatchB is vs

/-- Propositional form of itemsMatchB. -/
def ItemsMatch (is : List FItem) (vs : List Value) : Prop := itemsMatchB is vs = true

/-- ItemsMatch is decidable, being a boolean test. -/
instance (is : List FItem) (vs : List Value) : Decidable (ItemsMatch is vs) :=
  inferInstanceAs (Decidable (itemsMatchB is vs = true))

/-- Bytes emitted by the encoder for one token applied to a matching
argument (before the final Uint8Array truncation, which leaves them
unchanged for matching arguments). -/
def encTok : Tok → Value → List Nat
  | .b, .int n => encBytes 1 n
  | .w, .int n => encBytes 2 n
  | .d, .int n => encBytes 4 n
  | .q, .int n => encBytes 8 n
  | .x, .str cs => ((cs.length >>> 8) &&& 255) :: ((cs.length &&& 255) :: cs)
  | .s, .str cs => (((cs.length + 1) >>> 8) &&& 255) :: (((cs.length + 1) &&& 255) :: (cs ++ [0]))
  | _, _ => []

/-- Bytes emitted for a whole item list applied to an argument list. -/
def encItems : List FItem → List Value → List Nat
  | [], _ => []
  | .tok t :: is, v :: vs => encTok t v ++ encItems is vs
  | .tok _ :: _, [] => []
  | .lit a :: is, vs => a :: encItems is vs

/-- Lower-case hex digit character for a nibble value. -/
def hexChar (n : Nat) : Char :=
  if n < 10 then Char.ofNat ('0'.toNat + n) else Char.ofNat ('a'.toNat + n - 10)

/-- Format-string rendering of an item list: a percent escape plus the
token character for tokens, two hex digits for a literal byte. -/
def fmtOfItems : List FItem → List Char
  | [] => []
  | .tok t :: is => '%' :: t.char :: fmtOfItems is
  | .lit a :: is => hexChar (a / 16) :: hexChar (a % 16) :: fmtOfItems is

/-- Big-endian base-256 digits of a natural number at a given width, the
arithmetic counterpart of encBytes. -/
def encBytesNat : Nat → Nat → List Nat
  | 0, _ => []
  | w + 1, m => (m / 2 ^ (8 * w) % 256) :: encBytesNat w m

/-- Digit sum interpreting base-16 digits as base-10 digits: the value the
spec ascribes to BCD2int. -/
def nibbleSum (bcd : Nat) : Nat :=
  if h : bcd = 0 then 0 else bcd % 16 + 10 * nibbleSum (bcd / 16)
termination_by bcd
decreasing_by
  exact Nat.div_lt_self (Nat.pos_of_ne_zero h) (by norm_num)

/-- Digit packing interpreting base-10 digits as base-16 digits: the packed
BCD encoding of a value, before the 32-bit reinterpretation. -/
def packDigits (v : Nat) : Nat :=
  if h : v = 0 then 0 else v % 10 + 16 * packDigits (v / 10)
termination_by v
decreasing_by
  exact Nat.div_lt_self (Nat.pos_of_ne_zero h) (by norm_num)

/-! Arithmetic helper lemmas. -/

theorem and255_eq_mod (x : Nat) : x &&& 255 = x % 256 := by
  have h : (255 : Nat) = 2 ^ 8 - 1 := by norm_num
  rw [h, Nat.and_pow_two_sub_one_eq_mod]

theorem lor_mul_pow {a k : Nat} (b : Nat) (ha : a < 2 ^ k) : b * 2 ^ k ||| a = b * 2 ^ k + a := by
  rw [Nat.mul_comm b, ← Nat.mul_add_lt_is_or ha b, Nat.mul_comm]

theorem shrAnd_toNat (a k : Nat) : (jsbiAnd255 (jsbiShr (a : Int) k)).toNat = a / 2 ^ k % 256 := by
  have h1 : jsbiShr (a : Int) k = ((a >>> k : Nat) : Int) := rfl
  rw [h1]
  have h2 : jsbiAnd255 ((a >>> k : Nat) : Int) = ((a >>> k % 256 : Nat) : Int) := by
    simp [jsbiAnd255, Int.ofNat_emod]
  rw [h2, Int.toNat_ofNat, Nat.shiftRight_eq_div_pow]

theorem encBytes_eq (w m : Nat) : encBytes w (m : Int) = encBytesNat w m := by
  induction w with
  | zero => rfl
  | succ w ih => simp [encBytes, encBytesNat, ih, shrAnd_toNat]

theorem encBytes_lt (w : Nat) (n : Int) : ∀ a ∈ encBytes w n, a < 256 := by
  induction w with
  | zero => simp [encBytes]
  | succ w ih =>
    intro a ha
    simp only [encBytes, List.mem_cons] at ha
    rcases ha with h | h
    · subst h
      have h1 : (0 : Int) ≤ jsbiShr n (8 * w) % 256 := Int.emod_nonneg _ (by norm_num)
      have h2 : jsbiShr n (8 * w) % 256 < 256 := Int.emod_lt_of_pos _ (by norm_num)
      simp only [jsbiAnd255]
      omega
    · exact ih a h

theorem decBytes_enc (w : Nat) : ∀ (hi m : Nat) (rest : List Nat),
    decBytes w (hi * 2 ^ (8 * w)) (encBytesNat w m ++ rest) =
      some (hi * 2 ^ (8 * w) + m % 2 ^ (8 * w), rest) := by
  induction w with
  | zero =>
    intro hi m rest
    simp [decBytes, encBytesNat, Nat.mod_one]
  | succ w ih =>
    intro hi m rest
    have hd : m / 2 ^ (8 * w) % 256 < 256 := Nat.mod_lt _ (by norm_num)
    have hsplit : 8 * (w + 1) = 8 * w + 8 := by omega
    simp only [encBytesNat, List.cons_append, decBytes, Nat.shiftLeft_eq]
    have hb : m / 2 ^ (8 * w) % 256 * 2 ^ (8 * w) < 2 ^ (8 * (w + 1)) := by
      rw [hsplit, pow_add]
      have := Nat.mul_lt_mul_of_lt_of_le hd (Nat.le_refl (2 ^ (8 * w))) (Nat.pos_pow_of_pos _ (by norm_num))
      calc m / 2 ^ (8 * w) % 256 * 2 ^ (8 * w) < 256 * 2 ^ (8 * w) := this
        _ = 2 ^ (8 * w) * 2 ^ 8 := by rw [Nat.mul_comm]; norm_num
    have e1 : hi * 2 ^ (8 * (w + 1)) ||| m / 2 ^ (8 * w) % 256 * 2 ^ (8 * w) =
        (hi * 256 + m / 2 ^ (8 * w) % 256) * 2 ^ (8 * w) := by
      rw [lor_mul_pow _ hb, hsplit, pow_add]
      ring_nf
    rw [e1]
    show decBytes w ((hi * 256 + m / 2 ^ (8 * w) % 256) * 2 ^ (8 * w)) (encBytesNat w m ++ rest) = _
    rw [ih (hi * 256 + m / 2 ^ (8 * w) % 256) m rest]
    have e2 : m % 2 ^ (8 * (w + 1)) = m % 2 ^ (8 * w) + 2 ^ (8 * w) * (m / 2 ^ (8 * w) % 256) := by
      rw [hsplit, pow_add]
      exact Nat.mod_mul
    rw [e2]
    congr 1
    ring_nf

/-! Per-token behaviour of the encoder and the decoder on well-formed data. -/

theorem hexChar_val : ∀ n, n < 16 → hexVal? (hexChar n) = some n := by decide

theorem hexChar_ne : ∀ n, n < 16 → hexChar n ≠ '%' ∧ hexChar n ≠ ' ' := by decide

theorem parseHexPair_hexChar (b : Nat) (hb : b < 256) :
    parseHexPair (hexChar (b / 16)) (hexChar (b % 16)) = some b := by
  have h1 : b / 16 < 16 := by omega
  have h2 : b % 16 < 16 := Nat.mod_lt _ (by norm_num)
  simp only [parseHexPair, hexChar_val _ h1, hexChar_val _ h2]
  congr 1
  omega

theorem formatTok_enc (t : Tok) (v : Value) (h : Tok.matches t v) (rest : List Value) :
    formatTok t.char (v :: rest) = .ok (rest, encTok t v) := by
  cases t <;> cases v <;> simp [Tok.matches, Tok.matchesB] at h <;>
    simp [formatTok, FORMAT_TYPE_LEN_DICT, encTok, Tok.char, stringToCharCodeArray]

theorem decBytes_short (w : Nat) : ∀ (value : Nat) (input : List Nat),
    input.length < w → decBytes w value input = none := by
  induction w with
  | zero => intro value input h; omega
  | succ w ih =>
    intro value input h
    cases input with
    | nil => rfl
    | cons b input =>
      simp only [List.length_cons] at h
      simp only [decBytes]
      exact ih _ input (by omega)

theorem scanTok_num (c : Char) (wd : Nat) (hc : c ≠ '?')
    (hdict : FORMAT_TYPE_LEN_DICT c = some wd) (m : Nat) (hm : m < 2 ^ (8 * wd))
    (rest : List Nat) :
    scanTok c (encBytesNat wd m ++ rest) = .ok (rest, [.int (m : Int)]) := by
  unfold scanTok
  rw [if_neg hc, hdict]
  have h0 := decBytes_enc wd 0 m rest
  rw [Nat.zero_mul, Nat.zero_add] at h0
  simp only [h0]
  rw [Nat.mod_eq_of_lt hm]

theorem scanTok_x (cs : List Nat) (hlen : cs.length < 65536) (rest : List Nat) :
    scanTok 'x' (encTok .x (.str cs) ++ rest) = .ok (rest, [.str cs]) := by
  have hp0 : (cs.length >>> 8) &&& 255 = cs.length / 256 := by
    rw [and255_eq_mod, Nat.shiftRight_eq_div_pow]
    have h256 : (2 : Nat) ^ 8 = 256 := by norm_num
    rw [h256]
    exact Nat.mod_eq_of_lt (by omega)
  have hp1 : cs.length &&& 255 = cs.length % 256 := and255_eq_mod _
  simp only [encTok, List.cons_append, scanTok]
  norm_num [hp0, hp1]
  rw [if_neg (show ¬ ('x' : Char) = '?' by decide)]
  simp only [show FORMAT_TYPE_LEN_DICT 'x' = none from rfl]
  rw [if_neg (show ¬ ('x' : Char) = 's' by decide)]
  have hlen2 : cs.length / 256 * 256 + cs.length % 256 = cs.length := by omega
  rw [hlen2, List.take_left' rfl, List.drop_left' rfl]

theorem scanTok_s (cs : List Nat) (hlen : cs.length + 1 < 65536) (rest : List Nat) :
    scanTok 's' (encTok .s (.str cs) ++ rest) = .ok (rest, [.str cs]) := by
  have hp0 : ((cs.length + 1) >>> 8) &&& 255 = (cs.length + 1) / 256 := by
    rw [and255_eq_mod, Nat.shiftRight_eq_div_pow]
    have h256 : (2 : Nat) ^ 8 = 256 := by norm_num
    rw [h256]
    exact Nat.mod_eq_of_lt (by omega)
  have hp1 : (cs.length + 1) &&& 255 = (cs.length + 1) % 256 := and255_eq_mod _
  simp only [encTok, List.cons_append, List.append_assoc, scanTok]
  norm_num [hp0, hp1]
  rw [if_neg (show ¬ ('s' : Char) = '?' by decide)]
  simp only [show FORMAT_TYPE_LEN_DICT 's' = none from rfl]
  have hlen2 : (cs.length + 1) / 256 * 256 + (cs.length + 1) % 256 = cs.length + 1 := by omega
  have hre : cs ++ 0 :: rest = (cs ++ [0]) ++ rest := by simp
  have hl : (cs ++ [0]).length = cs.length + 1 := by simp
  rw [hlen2, hre, List.take_left' hl, List.drop_left' hl, List.dropLast_concat]

/-! Decoding the encoder's output, token by token, and over whole item lists. -/

theorem scanTok_enc : ∀ (t : Tok) (v : Value), Tok.matches t v → ∀ (rest : List Nat),
    scanTok t.char (encTok t v ++ rest) = .ok (rest, [v]) := by
  intro t v h rest
  cases t <;> cases v <;> simp [Tok.matches, Tok.matchesB] at h
  · obtain ⟨m, rfl⟩ := Int.eq_ofNat_of_zero_le h.1
    have hm2 : m < 256 := by exact_mod_cast h.2
    have hm : m < 2 ^ (8 * 1) := by norm_num; exact hm2
    simp only [Tok.char]
    rw [show encTok .b (.int (m : Int)) = encBytesNat 1 m by simp [encTok, encBytes_eq]]
    exact scanTok_num 'b' 1 (by decide) rfl m hm rest
  · obtain ⟨m, rfl⟩ := Int.eq_ofNat_of_zero_le h.1
    have hm2 : m < 65536 := by exact_mod_cast h.2
    have hm : m < 2 ^ (8 * 2) := by norm_num; exact hm2
    simp only [Tok.char]
    rw [show encTok .w (.int (m : Int)) = encBytesNat 2 m by simp [encTok, encBytes_eq]]
    exact scanTok_num 'w' 2 (by decide) rfl m hm rest
  · obtain ⟨m, rfl⟩ := Int.eq_ofNat_of_zero_le h.1
    have hm2 : m < 4294967296 := by exact_mod_cast h.2
    have hm : m < 2 ^ (8 * 4) := by norm_num; exact hm2
    simp only [Tok.char]
    rw [show encTok .d (.int (m : Int)) = encBytesNat 4 m by simp [encTok, encBytes_eq]]
    exact scanTok_num 'd' 4 (by decide) rfl m hm rest
  · obtain ⟨m, rfl⟩ := Int.eq_ofNat_of_zero_le h.1
    have hm2 : m < 18446744073709551616 := by exact_mod_cast h.2
    have hm : m < 2 ^ (8 * 8) := by norm_num; exact hm2
    simp only [Tok.char]
    rw [show encTok .q (.int (m : Int)) = encBytesNat 8 m by simp [encTok, encBytes_eq]]
    exact scanTok_num 'q' 8 (by decide) rfl m hm rest
  · simp only [Tok.char]
    exact scanTok_x _ h.2 rest
  · simp only [Tok.char]
    exact scanTok_s _ h.2 rest

theorem itemsMatch_nil {vs : List Value} (h : ItemsMatch [] vs) : vs = [] := by
  cases vs with
  | nil => rfl
  | cons v vs => simp [ItemsMatch, itemsMatchB] at h

theorem itemsMatch_tok {t : Tok} {is : List FItem} {vs : List Value}
    (h : ItemsMatch (.tok t :: is) vs) :
    ∃ v vs2, vs = v :: vs2 ∧ Tok.matches t v ∧ ItemsMatch is vs2 := by
  cases vs with
  | nil => simp [ItemsMatch, itemsMatchB] at h
  | cons v vs =>
    simp only [ItemsMatch, itemsMatchB, Bool.and_eq_true] at h
    exact ⟨v, vs, rfl, h.1, h.2⟩

theorem itemsMatch_lit {a : Nat} {is : List FItem} {vs : List Value}
    (h : ItemsMatch (.lit a :: is) vs) : a < 256 ∧ ItemsMatch is vs := by
  simp only [ItemsMatch, itemsMatchB, Bool.and_eq_true, decide_eq_true_eq] at h
  exact h

theorem formatGo_items : ∀ (is : List FItem) (vs : List Value), ItemsMatch is vs →
    ∀ (suffix : List Char) (args2 : List Value) (acc : List (Option Nat)),
    formatGo (fmtOfItems is ++ suffix) none (vs ++ args2) acc =
      formatGo suffix none args2 (acc ++ (encItems is vs).map some) := by
  intro is
  induction is with
  | nil =>
    intro vs h suffix args2 acc
    rw [itemsMatch_nil h]
    simp [fmtOfItems, encItems]
  | cons i is ih =>
    intro vs h suffix args2 acc
    cases i with
    | tok t =>
      obtain ⟨v, vs2, rfl, hm, hrest⟩ := itemsMatch_tok h
      simp only [fmtOfItems, encItems, List.cons_append, List.map_append]
      rw [formatGo]
      simp only [if_pos rfl]
      rw [formatTok_enc t v hm (vs2 ++ args2)]
      simp only [if_true]
      rw [ih vs2 hrest suffix args2 (acc ++ (encTok t v).map some)]
      rw [List.append_assoc]
    | lit a =>
      obtain ⟨ha, hrest⟩ := itemsMatch_lit h
      simp only [fmtOfItems, encItems, List.cons_append, List.map_cons]
      have hne1 := hexChar_ne (a / 16) (by omega)
      have hne2 := hexChar_ne (a % 16) (Nat.mod_lt _ (by norm_num))
      rw [formatGo, if_neg hne1.1, if_neg hne1.2]
      rw [formatGo, if_neg hne2.1, if_neg hne2.2]
      rw [parseHexPair_hexChar a ha]
      rw [ih vs hrest suffix args2 (acc ++ [some a])]
      rw [List.append_assoc]
      rfl

theorem scanGo_items : ∀ (is : List FItem) (vs : List Value), ItemsMatch is vs →
    ∀ (suffix : List Char) (restInput : List Nat) (init : Nat) (acc : List Value),
    scanGo (fmtOfItems is ++ suffix) (encItems is vs ++ restInput) init none acc =
      scanGo suffix restInput init none (acc ++ vs) := by
  intro is
  induction is with
  | nil =>
    intro vs h suffix restInput init acc
    rw [itemsMatch_nil h]
    simp [fmtOfItems, encItems]
  | cons i is ih =>
    intro vs h suffix restInput init acc
    cases i with
    | tok t =>
      obtain ⟨v, vs2, rfl, hm, hrest⟩ := itemsMatch_tok h
      simp only [fmtOfItems, encItems, List.cons_append, List.append_assoc]
      rw [scanGo]
      simp only [if_pos rfl]
      rw [scanTok_enc t v hm (encItems is vs2 ++ restInput)]
      simp only [if_true]
      rw [ih vs2 hrest suffix restInput init (acc ++ [v])]
      rw [List.append_assoc]
      rfl
    | lit a =>
      obtain ⟨ha, hrest⟩ := itemsMatch_lit h
      simp only [fmtOfItems, encItems, List.cons_append]
      have hne1 := hexChar_ne (a / 16) (by omega)
      have hne2 := hexChar_ne (a % 16) (Nat.mod_lt _ (by norm_num))
      rw [scanGo, if_neg hne1.1, if_neg hne1.2]
      rw [scanGo, if_neg hne2.1, if_neg hne2.2]
      rw [parseHexPair_hexChar a ha]
      rw [show scanLit (some a) (a :: (encItems is vs ++ restInput)) init =
        .ok (encItems is vs ++ restInput) by simp [scanLit]]
      exact ih vs hrest suffix restInput init acc

/-! Whole-call corollaries: the encoder succeeds on matching arguments and
its output bytes survive the Uint8Array truncation; the decoder consumes
exactly the encoded bytes. -/

theorem and255_lt (x : Nat) : x &&& 255 < 256 := by
  have h := Nat.and_le_right (n := x) (m := 255)
  omega

theorem encTok_lt (t : Tok) (v : Value) (h : Tok.matches t v) :
    ∀ a ∈ encTok t v, a < 256 := by
  cases t <;> cases v <;> simp [Tok.matches, Tok.matchesB] at h <;> intro a ha
  · exact encBytes_lt 1 _ a ha
  · exact encBytes_lt 2 _ a ha
  · exact encBytes_lt 4 _ a ha
  · exact encBytes_lt 8 _ a ha
  · simp only [encTok, List.mem_cons] at ha
    rcases ha with h1 | h1 | h1
    · subst h1; exact and255_lt _
    · subst h1; exact and255_lt _
    · exact h.1 a h1
  · simp only [encTok, List.mem_cons, List.mem_append, List.mem_singleton] at ha
    rcases ha with h1 | h1 | h1 | h1
    · subst h1; exact and255_lt _
    · subst h1; exact and255_lt _
    · exact h.1 a h1
    · simp at h1
      omega

theorem encItems_lt : ∀ (is : List FItem) (vs : List Value), ItemsMatch is vs →
    ∀ a ∈ encItems is vs, a < 256 := by
  intro is
  induction is with
  | nil =>
    intro vs h
    rw [itemsMatch_nil h]
    simp [encItems]
  | cons i is ih =>
    intro vs h a ha
    cases i with
    | tok t =>
      obtain ⟨v, vs2, rfl, hm, hrest⟩ := itemsMatch_tok h
      simp only [encItems, List.mem_append] at ha
      rcases ha with h1 | h1
      · exact encTok_lt t v hm a h1
      · exact ih vs2 hrest a h1
    | lit b =>
      obtain ⟨hb, hrest⟩ := itemsMatch_lit h
      simp only [encItems, List.mem_cons] at ha
      rcases ha with h1 | h1
      · omega
      · exact ih vs hrest a h1

theorem map_toUint8_of_lt (l : List Nat) (h : ∀ a ∈ l, a < 256) :
    (l.map some).map toUint8 = l := by
  induction l with
  | nil => rfl
  | cons a l ih =>
    simp only [List.map_cons, List.cons.injEq]
    constructor
    · exact Nat.mod_eq_of_lt (h a (by simp))
    · exact ih fun b hb => h b (by simp [hb])

theorem formatQuery_items (is : List FItem) (vs : List Value) (h : ItemsMatch is vs) :
    formatQuery (fmtOfItems is) vs = .ok (encItems is vs) := by
  unfold formatQuery
  have hgo := formatGo_items is vs h [] [] []
  rw [List.append_nil, List.append_nil] at hgo
  rw [hgo]
  show Except.ok (((encItems is vs).map some).map toUint8) = _
  rw [map_toUint8_of_lt _ (encItems_lt is vs h)]

theorem scanQuery_items (is : List FItem) (vs : List Value) (h : ItemsMatch is vs)
    (restInput : List Nat) :
    scanQuery (encItems is vs ++ restInput) (fmtOfItems is) =
      if restInput.isEmpty then .ok vs else .error (.bytesRemaining restInput.length) := by
  unfold scanQuery
  have hgo := scanGo_items is vs h [] restInput (encItems is vs ++ restInput).length []
  rw [List.append_nil] at hgo
  rw [hgo]
  rfl

/-! BCD loop invariants. -/

theorem BCD2intGo_spec : ∀ bcd, bcd < 2 ^ 32 → ∀ nib val,
    BCD2intGo bcd nib val = val + 10 ^ nib * nibbleSum bcd := by
  intro bcd
  induction bcd using Nat.strong_induction_on with
  | _ bcd ih =>
    intro hlt nib val
    by_cases h : bcd = 0
    · subst h
      rw [BCD2intGo, nibbleSum]
      simp
    · rw [BCD2intGo, dif_neg h, nibbleSum, dif_neg h]
      rw [Nat.mod_eq_of_lt hlt]
      have hdiv : bcd / 16 < bcd := Nat.div_lt_self (Nat.pos_of_ne_zero h) (by norm_num)
      rw [ih (bcd / 16) hdiv (by omega) (nib + 1) (val + bcd % 16 * 10 ^ nib)]
      ring

theorem nibbleSum_sum : ∀ (k : Nat) (bcd : Nat), bcd < 16 ^ k →
    nibbleSum bcd = ∑ i in Finset.range k, bcd / 16 ^ i % 16 * 10 ^ i := by
  intro k
  induction k with
  | zero =>
    intro bcd h
    simp only [pow_zero] at h
    interval_cases bcd
    rw [nibbleSum]
    simp
  | succ k ih =>
    intro bcd h
    by_cases h0 : bcd = 0
    · subst h0
      rw [nibbleSum]
      simp
    · rw [nibbleSum, dif_neg h0]
      have hdivlt : bcd / 16 < 16 ^ k := by
        rw [Nat.div_lt_iff_lt_mul (by norm_num)]
        calc bcd < 16 ^ (k + 1) := h
          _ = 16 ^ k * 16 := pow_succ 16 k
      rw [ih (bcd / 16) hdivlt]
      rw [Finset.sum_range_succ']
      simp only [pow_zero, Nat.div_one, mul_one]
      rw [Finset.mul_sum]
      have hterm : ∀ i ∈ Finset.range k,
          10 * (bcd / 16 / 16 ^ i % 16 * 10 ^ i) = bcd / 16 ^ (i + 1) % 16 * 10 ^ (i + 1) := by
        intro i _
        rw [Nat.div_div_eq_div_mul, ← pow_succ']
        ring
      rw [Finset.sum_congr rfl hterm]
      omega

theorem packDigits_sum : ∀ (k : Nat) (v : Nat), v < 10 ^ k →
    packDigits v = ∑ i in Finset.range k, v / 10 ^ i % 10 * 16 ^ i := by
  intro k
  induction k with
  | zero =>
    intro v h
    simp only [pow_zero] at h
    interval_cases v
    rw [packDigits]
    simp
  | succ k ih =>
    intro v h
    by_cases h0 : v = 0
    · subst h0
      rw [packDigits]
      simp
    · rw [packDigits, dif_neg h0]
      have hdivlt : v / 10 < 10 ^ k := by
        rw [Nat.div_lt_iff_lt_mul (by norm_num)]
        calc v < 10 ^ (k + 1) := h
          _ = 10 ^ k * 10 := pow_succ 10 k
      rw [ih (v / 10) hdivlt]
      rw [Finset.sum_range_succ']
      simp only [pow_zero, Nat.div_one, mul_one]
      rw [Finset.mul_sum]
      have hterm : ∀ i ∈ Finset.range k,
          16 * (v / 10 / 10 ^ i % 10 * 16 ^ i) = v / 10 ^ (i + 1) % 10 * 16 ^ (i + 1) := by
        intro i _
        rw [Nat.div_div_eq_div_mul, ← pow_succ']
        ring
      rw [Finset.sum_congr rfl hterm]
      omega

theorem toInt32_natCast_small {B : Nat} (h : B < 2 ^ 32) :
    toInt32 (B : Int) % 2 ^ 32 = (B : Int) := by
  unfold toInt32
  omega

theorem jsOr32_nat (B C : Nat) (hB : B < 2 ^ 32) (hC : C < 2 ^ 32) :
    jsOr32 (toInt32 (B : Int)) (toInt32 (C : Int)) = toInt32 ((B ||| C : Nat) : Int) := by
  unfold jsOr32
  rw [toInt32_natCast_small hB, toInt32_natCast_small hC]
  rw [Int.toNat_natCast, Int.toNat_natCast]

theorem toInt32_zero : toInt32 ((0 : Nat) : Int) = 0 := by
  unfold toInt32
  norm_num

theorem int2BCDGo_spec : ∀ (value : Nat), ∀ (nib B : Nat), value < 10 ^ (8 - nib) → B < 16 ^ nib →
    int2BCDGo value nib (toInt32 (B : Int)) = toInt32 ((B + 16 ^ nib * packDigits value : Nat) : Int) := by
  intro value
  induction value using Nat.strong_induction_on with
  | _ value ih =>
    intro nib B hv hB
    by_cases h0 : value = 0
    · subst h0
      rw [int2BCDGo, dif_pos rfl, packDigits, dif_pos rfl]
      norm_num
    · have hnib : nib ≤ 7 := by
        by_contra hc
        push_neg at hc
        have h8 : 8 - nib = 0 := by omega
        rw [h8, pow_zero] at hv
        omega
      have h16 : (16 : Nat) ^ nib ≤ 16 ^ 7 := Nat.pow_le_pow_right (by norm_num) hnib
      have hd : value % 10 ≤ 9 := by omega
      rw [int2BCDGo, dif_neg h0]
      have hshl : jsShl32 ((value % 10 : Nat) : Int) (4 * nib) =
          toInt32 ((value % 10 * 16 ^ nib : Nat) : Int) := by
        unfold jsShl32
        rw [Nat.mod_eq_of_lt (show 4 * nib < 32 by omega)]
        congr 1
        push_cast
        rw [show ((2 : Int)) ^ (4 * nib) = ((2 : Int) ^ 4) ^ nib from pow_mul 2 4 nib]
        norm_num
      rw [hshl]
      have hBlt : B < 2 ^ 32 := by
        calc B < 16 ^ nib := hB
          _ ≤ 16 ^ 7 := h16
          _ < 2 ^ 32 := by norm_num
      have hClt : value % 10 * 16 ^ nib < 2 ^ 32 := by
        calc value % 10 * 16 ^ nib ≤ 9 * 16 ^ 7 := by
              exact Nat.mul_le_mul hd h16
          _ < 2 ^ 32 := by norm_num
      rw [jsOr32_nat B (value % 10 * 16 ^ nib) hBlt hClt]
      have hlor : (B ||| value % 10 * 16 ^ nib : Nat) = B + value % 10 * 16 ^ nib := by
        rw [Nat.lor_comm]
        have h2 : (16 : Nat) ^ nib = 2 ^ (4 * nib) := by
          rw [pow_mul]
          norm_num
        rw [h2] at hB ⊢
        rw [lor_mul_pow _ hB]
        omega
      rw [hlor]
      have hdivlt : value / 10 < value := Nat.div_lt_self (Nat.pos_of_ne_zero h0) (by norm_num)
      have hv2 : value / 10 < 10 ^ (8 - (nib + 1)) := by
        rw [Nat.div_lt_iff_lt_mul (by norm_num)]
        have he : 8 - nib = (8 - (nib + 1)) + 1 := by omega
        rw [he, pow_succ] at hv
        exact hv
      have hB2 : B + value % 10 * 16 ^ nib < 16 ^ (nib + 1) := by
        have : B + value % 10 * 16 ^ nib < 16 ^ nib + 9 * 16 ^ nib := by
          have := Nat.mul_le_mul_right (16 ^ nib) hd
          omega
        calc B + value % 10 * 16 ^ nib < 16 ^ nib + 9 * 16 ^ nib := this
          _ ≤ 16 ^ nib * 16 := by omega
          _ = 16 ^ (nib + 1) := (pow_succ 16 nib).symm
      rw [ih (value / 10) hdivlt (nib + 1) (B + value % 10 * 16 ^ nib) hv2 hB2]
      have harith : B + value % 10 * 16 ^ nib + 16 ^ (nib + 1) * packDigits (value / 10)
          = B + 16 ^ nib * packDigits value := by
        conv_rhs => rw [packDigits, dif_neg h0]
        ring
      rw [harith]

theorem int2BCD_ok (value length : Nat) (hl : length ≤ 4) (hv : value ≤ 10 ^ (length * 2) - 1) :
    int2BCD value length = .ok (toInt32 ((packDigits value : Nat) : Int)) := by
  unfold int2BCD
  rw [if_neg (by omega), if_neg (by omega)]
  have hpos : 0 < 10 ^ (length * 2) := Nat.pos_pow_of_pos _ (by norm_num)
  have hub : 10 ^ (length * 2) ≤ 10 ^ 8 := Nat.pow_le_pow_right (by norm_num) (by omega)
  have h8 : value < 10 ^ (8 - 0) := by
    simp only [Nat.sub_zero]
    omega
  have h0 := int2BCDGo_spec value 0 0 h8 (by norm_num)
  rw [toInt32_zero] at h0
  rw [h0]
  norm_num

theorem BCD2int_spec (bcd : Nat) (h : bcd < 2 ^ 32) :
    BCD2int bcd = ∑ i in Finset.range 8, bcd / 16 ^ i % 16 * 10 ^ i := by
  unfold BCD2int
  rw [BCD2intGo_spec bcd h 0 0]
  rw [nibbleSum_sum 8 bcd (by norm_num; omega)]
  norm_num

/-! Claim theorems. -/

/-- C1: for every format string consisting only of typed tokens (the six
argument-consuming tokens b, w, d, q, x, s, each written as a percent
escape) and every argument sequence matching those tokens, scanQuery
applied to the buffer produced by formatQuery with the same format returns
the original argument sequence; the s token's appended NUL terminator is
stripped again on decode, so the result is the arguments themselves. -/
theorem roundtrip_typed_tokens (ts : List Tok) (args : List Value)
    (h : ItemsMatch (ts.map FItem.tok) args) :
    formatQuery (fmtOfItems (ts.map FItem.tok)) args = .ok (encItems (ts.map FItem.tok) args) ∧
    scanQuery (encItems (ts.map FItem.tok) args) (fmtOfItems (ts.map FItem.tok)) = .ok args := by
  constructor
  · exact formatQuery_items _ args h
  · have h2 := scanQuery_items _ args h []
    rw [List.append_nil] at h2
    simpa using h2

/-- Witness for C1 at the token list [w, s] with arguments 258 and "hi". -/
theorem roundtrip_typed_tokens_witness :
    ItemsMatch ([Tok.w, Tok.s].map FItem.tok) [Value.int 258, Value.str [104, 105]] ∧
    (formatQuery (fmtOfItems ([Tok.w, Tok.s].map FItem.tok)) [Value.int 258, Value.str [104, 105]] =
        .ok (encItems ([Tok.w, Tok.s].map FItem.tok) [Value.int 258, Value.str [104, 105]]) ∧
      scanQuery (encItems ([Tok.w, Tok.s].map FItem.tok) [Value.int 258, Value.str [104, 105]])
          (fmtOfItems ([Tok.w, Tok.s].map FItem.tok)) = .ok [Value.int 258, Value.str [104, 105]]) :=
  ⟨by decide, roundtrip_typed_tokens [Tok.w, Tok.s] [Value.int 258, Value.str [104, 105]] (by decide)⟩

/-- C3: the s token emits a 2-byte big-endian length prefix equal to the
character count plus one, then the character codes, then a zero byte; on
decode it consumes the prefixed length and drops the final character.
Concretely, encode yields length / 256 and length % 256 prefix bytes
followed by the codes and the terminator, and decode returns the original
string. -/
theorem s_token_layout (cs : List Nat) (hb : ∀ a ∈ cs, a < 256)
    (hl : cs.length + 1 < 65536) :
    formatQuery ['%', 's'] [.str cs] =
      .ok ((cs.length + 1) / 256 :: (((cs.length + 1) % 256) :: (cs ++ [0]))) ∧
    scanQuery ((cs.length + 1) / 256 :: (((cs.length + 1) % 256) :: (cs ++ [0]))) ['%', 's'] =
      .ok [.str cs] := by
  have hm : ItemsMatch [FItem.tok Tok.s] [Value.str cs] := by
    simp [ItemsMatch, itemsMatchB, Tok.matchesB, List.all_eq_true]
    exact ⟨fun a ha => hb a ha, hl⟩
  have hp0 : ((cs.length + 1) >>> 8) &&& 255 = (cs.length + 1) / 256 := by
    rw [and255_eq_mod, Nat.shiftRight_eq_div_pow]
    have h256 : (2 : Nat) ^ 8 = 256 := by norm_num
    rw [h256]
    exact Nat.mod_eq_of_lt (by omega)
  have hp1 : (cs.length + 1) &&& 255 = (cs.length + 1) % 256 := and255_eq_mod _
  have henc : encItems [FItem.tok Tok.s] [Value.str cs] =
      (cs.length + 1) / 256 :: (((cs.length + 1) % 256) :: (cs ++ [0])) := by
    show encTok Tok.s (Value.str cs) ++ [] = _
    rw [List.append_nil]
    simp only [encTok, hp0, hp1]
  constructor
  · have h1 := formatQuery_items [FItem.tok Tok.s] [Value.str cs] hm
    rw [henc] at h1
    exact h1
  · have h2 := scanQuery_items [FItem.tok Tok.s] [Value.str cs] hm []
    rw [List.append_nil, henc] at h2
    simpa using h2

/-- Witness for C3: encode yields the five bytes 0, 3, h, i, 0 and decode
returns the string hi. -/
theorem s_token_layout_witness :
    formatQuery ['%', 's'] [Value.str [104, 105]] = .ok [0, 3, 104, 105, 0] ∧
    scanQuery [0, 3, 104, 105, 0] ['%', 's'] = .ok [Value.str [104, 105]] := by
  have h := s_token_layout [104, 105] (by decide) (by decide)
  simpa using h

theorem scanTok_underflow (c : Char) (wd : Nat) (hc : c ≠ '?')
    (hw : FORMAT_TYPE_LEN_DICT c = some wd) (input : List Nat)
    (hlen : input.length < wd) :
    scanTok c input = .error .bigIntUndefined := by
  unfold scanTok
  rw [if_neg hc, hw]
  simp only [decBytes_short wd 0 input hlen]

/-- C4, corrected: after the format is fully consumed the input must be
exactly exhausted, so a buffer with one extra trailing byte beyond what the
format consumes fails with the bytes-remaining error (first conjunct, for
any well-formed format of tokens and literal bytes applied to matching
arguments). A buffer one byte short fails for a fixed-width token, whose
byte loop shifts an undefined value into JSBI.BigInt (second conjunct);
the original claim's second half is false for the s and x tokens, which
silently truncate to the bytes present instead of failing. -/
theorem exhaustion_amended :
    (∀ (is : List FItem) (vs : List Value), ItemsMatch is vs → ∀ (extra : Nat),
      scanQuery (encItems is vs ++ [extra]) (fmtOfItems is) =
        .error (.bytesRemaining 1)) ∧
    (∀ (t : Tok) (wd : Nat), FORMAT_TYPE_LEN_DICT t.char = some wd →
      ∀ (input : List Nat), input.length + 1 = wd →
        scanQuery input ['%', t.char] = .error .bigIntUndefined) := by
  constructor
  · intro is vs h extra
    rw [scanQuery_items is vs h [extra]]
    rfl
  · intro t wd hw input hlen
    have hc : t.char ≠ '?' := by
      intro hq
      rw [hq] at hw
      rw [show FORMAT_TYPE_LEN_DICT '?' = none from rfl] at hw
      exact Option.noConfusion hw
    unfold scanQuery
    rw [scanGo]
    simp only [if_pos rfl]
    rw [scanTok_underflow t.char wd hc hw input (by omega)]
    simp

/-- Witness for C4: a byte token's buffer with one trailing byte fails
with one byte remaining, and a word token on a single byte underflows. -/
theorem exhaustion_amended_witness :
    scanQuery (encItems [FItem.tok Tok.b] [Value.int 5] ++ [7]) (fmtOfItems [FItem.tok Tok.b]) =
      .error (.bytesRemaining 1) ∧
    scanQuery [9] ['%', 'w'] = .error .bigIntUndefined :=
  ⟨exhaustion_amended.1 [FItem.tok Tok.b] [Value.int 5] (by decide) 7,
   exhaustion_amended.2 Tok.w 2 rfl [9] (by decide)⟩

/-- Counterexample for C4: the buffer 0x00 0x01 is one byte short of what
its s token needs (the prefix declares one content byte and none is
present), yet scanQuery succeeds, returning the empty string, because the
splice silently truncates and the final exhaustion assert sees an empty
remainder. -/
theorem short_s_buffer_succeeds :
    scanQuery [0, 1] ['%', 's'] = .ok [Value.str []] := rfl

/-- C5, corrected: for a single-byte buffer, scanQuery with format AA
succeeds exactly when the byte is 0xAA = 170, and otherwise fails
reporting offset 0 (initial length 1, minus 0 remaining after the shift,
minus 1), expected 170, and the actual byte. The original claim ranged
over all buffers, which fails on longer buffers (see the
counterexample). -/
theorem scanQuery_literal_single (b : Nat) :
    scanQuery [b] ['A', 'A'] =
      if b = 170 then .ok [] else .error (.mismatch 0 (some 170) (some b)) := by
  by_cases hb : b = 170
  · subst hb
    rw [if_pos rfl]
    rfl
  · rw [if_neg hb]
    unfold scanQuery
    rw [scanGo, if_neg (by decide), if_neg (by decide)]
    rw [scanGo, if_neg (by decide), if_neg (by decide)]
    rw [show parseHexPair 'A' 'A' = some 170 from rfl]
    simp only [scanLit]
    rw [if_neg fun he => hb he.symm]
    norm_num

/-- Counterexample for C5: the two-byte buffer 0xAA 0x07 has 0xAA at index
zero, yet scanQuery with format AA fails: the literal matches but one byte
remains unparsed. -/
theorem literal_head_true_but_fails :
    [170, 7].head? = some 170 ∧
    scanQuery [170, 7] ['A', 'A'] = .error (.bytesRemaining 1) :=
  ⟨rfl, rfl⟩

/-- C10: a format that ends with a single unpaired hex half-digit after
complete pairs and tokens behaves as if the half-digit were absent:
formatQuery emits no byte for it and raises no error, and scanQuery
neither consumes nor verifies any input byte for it, for any trailing
input beyond the encoded bytes. -/
theorem trailing_half_digit_noop (is : List FItem) (vs : List Value) (c : Char)
    (rest : List Nat) (h : ItemsMatch is vs) (hc : (hexVal? c).isSome) :
    formatQuery (fmtOfItems is ++ [c]) vs = formatQuery (fmtOfItems is) vs ∧
    scanQuery (encItems is vs ++ rest) (fmtOfItems is ++ [c]) =
      scanQuery (encItems is vs ++ rest) (fmtOfItems is) := by
  have hne : c ≠ '%' ∧ c ≠ ' ' := by
    constructor <;> rintro rfl <;> simp [hexVal?] at hc
  constructor
  · unfold formatQuery
    have h1 := formatGo_items is vs h [c] [] []
    have h2 := formatGo_items is vs h [] [] []
    simp only [List.append_nil] at h1 h2
    rw [h1, h2]
    rw [formatGo]
    rw [formatGo, if_neg hne.1, if_neg hne.2]
    rfl
  · unfold scanQuery
    have h1 := scanGo_items is vs h [c] rest (encItems is vs ++ rest).length []
    have h2 := scanGo_items is vs h [] rest (encItems is vs ++ rest).length []
    simp only [List.append_nil] at h1 h2
    rw [h1, h2]
    rw [scanGo]
    rw [scanGo, if_neg hne.1, if_neg hne.2]
    rfl

/-- Witness for C10 at the format AAf (a literal byte pair followed by the
half-digit f) with the matching one-byte buffer. -/
theorem trailing_half_digit_noop_witness :
    formatQuery (fmtOfItems [FItem.lit 170] ++ ['f']) [] =
      formatQuery (fmtOfItems [FItem.lit 170]) [] ∧
    scanQuery (encItems [FItem.lit 170] [] ++ []) (fmtOfItems [FItem.lit 170] ++ ['f']) =
      scanQuery (encItems [FItem.lit 170] [] ++ []) (fmtOfItems [FItem.lit 170]) :=
  trailing_half_digit_noop [FItem.lit 170] [] 'f' [] (by decide) (by decide)

theorem encBytesNat_lt (w m : Nat) : ∀ a ∈ encBytesNat w m, a < 256 := by
  rw [← encBytes_eq]
  exact encBytes_lt w _

theorem encBytesNat_get : ∀ (w m i : Nat), i < w →
    (encBytesNat w m)[i]? = some (m / 2 ^ (8 * (w - 1 - i)) % 256) := by
  intro w
  induction w with
  | zero => intro m i h; omega
  | succ w ih =>
    intro m i h
    cases i with
    | zero =>
      rw [show w + 1 - 1 - 0 = w from by omega]
      simp [encBytesNat]
    | succ i =>
      rw [show w + 1 - 1 - (i + 1) = w - 1 - i from by omega]
      simp only [encBytesNat, List.getElem?_cons_succ]
      exact ih m i (by omega)

/-- C2: for each fixed-width token (widths 1, 2, 4, 8 from the type table)
and every in-range non-negative integer, formatQuery emits exactly width
bytes, most significant first, byte i holding the value shifted right by
8 * (width - 1 - i) and masked to 8 bits (arithmetically, the base-256
digit value / 2 ^ (8 * (width - 1 - i)) % 256), and scanQuery rebuilds the
integer exactly; in particular each token round-trips at its maximum
value (see the witness). -/
theorem fixed_width_token_spec (t : Tok) (wd : Nat)
    (hw : FORMAT_TYPE_LEN_DICT t.char = some wd) (n : Int) (h0 : 0 ≤ n)
    (hn : n < 2 ^ (8 * wd)) :
    formatQuery ['%', t.char] [.int n] = .ok (encBytesNat wd n.toNat) ∧
    (encBytesNat wd n.toNat).length = wd ∧
    (∀ i, i < wd →
      (encBytesNat wd n.toNat)[i]? = some (n.toNat / 2 ^ (8 * (wd - 1 - i)) % 256)) ∧
    scanQuery (encBytesNat wd n.toNat) ['%', t.char] = .ok [.int n] := by
  obtain ⟨m, rfl⟩ := Int.eq_ofNat_of_zero_le h0
  have hm : m < 2 ^ (8 * wd) := by exact_mod_cast hn
  rw [Int.toNat_natCast]
  have hlen : ∀ w k : Nat, (encBytesNat w k).length = w := by
    intro w
    induction w with
    | zero => intro k; rfl
    | succ w ih => intro k; simp [encBytesNat, ih]
  refine ⟨?_, hlen wd m, fun i hi => encBytesNat_get wd m i hi, ?_⟩
  · unfold formatQuery
    have hft : formatTok t.char [Value.int (m : Int)] = .ok ([], encBytes wd (m : Int)) := by
      unfold formatTok
      rw [hw]
      rfl
    rw [formatGo]
    simp only [if_pos rfl]
    rw [hft]
    simp only [if_true]
    show Except.ok (((encBytes wd (m : Int)).map some).map toUint8) = _
    rw [encBytes_eq]
    rw [map_toUint8_of_lt _ (encBytesNat_lt wd m)]
  · have hc : t.char ≠ '?' := by
      intro hq
      rw [hq] at hw
      rw [show FORMAT_TYPE_LEN_DICT '?' = none from rfl] at hw
      exact Option.noConfusion hw
    have hs := scanTok_num t.char wd hc hw m hm []
    rw [List.append_nil] at hs
    unfold scanQuery
    rw [scanGo]
    simp only [if_pos rfl]
    rw [hs]
    simp only [if_true]
    rfl

/-- Witness for C2: each of the four fixed-width tokens round-trips at its
maximum representable value. -/
theorem fixed_width_token_spec_witness :
    (formatQuery ['%', 'b'] [.int 255] = .ok (encBytesNat 1 (255 : Int).toNat) ∧
      scanQuery (encBytesNat 1 (255 : Int).toNat) ['%', 'b'] = .ok [.int 255]) ∧
    (formatQuery ['%', 'w'] [.int 65535] = .ok (encBytesNat 2 (65535 : Int).toNat) ∧
      scanQuery (encBytesNat 2 (65535 : Int).toNat) ['%', 'w'] = .ok [.int 65535]) ∧
    (formatQuery ['%', 'd'] [.int 4294967295] = .ok (encBytesNat 4 (4294967295 : Int).toNat) ∧
      scanQuery (encBytesNat 4 (4294967295 : Int).toNat) ['%', 'd'] = .ok [.int 4294967295]) ∧
    (formatQuery ['%', 'q'] [.int 18446744073709551615] =
        .ok (encBytesNat 8 (18446744073709551615 : Int).toNat) ∧
      scanQuery (encBytesNat 8 (18446744073709551615 : Int).toNat) ['%', 'q'] =
        .ok [.int 18446744073709551615]) := by
  have hb := fixed_width_token_spec Tok.b 1 rfl 255 (by decide) (by decide)
  have hw := fixed_width_token_spec Tok.w 2 rfl 65535 (by decide) (by decide)
  have hd := fixed_width_token_spec Tok.d 4 rfl 4294967295 (by decide) (by decide)
  have hq := fixed_width_token_spec Tok.q 8 rfl 18446744073709551615 (by decide) (by decide)
  exact ⟨⟨hb.1, hb.2.2.2⟩, ⟨hw.1, hw.2.2.2⟩, ⟨hd.1, hd.2.2.2⟩, ⟨hq.1, hq.2.2.2⟩⟩

/-- C6: in both formatQuery and scanQuery, an escape marker while a pending
literal half-digit is outstanding is the fatal half-assert (first and
third conjuncts); the escape applies to exactly the next character, and an
escaped character outside the recognized token sets (b, w, d, q, x, s, *
for encoding; ?, b, w, d, q, s, x, *, # for decoding) is the fatal
unrecognized-format-char error, whatever follows and whatever the data
state is (second and fourth conjuncts). -/
theorem escape_marker_invariants :
    (∀ (rest : List Char) (hc : Char) (args : List Value) (acc : List (Option Nat)),
      formatGo ('%' :: rest) (some hc) args acc = .error .halfAssert) ∧
    (∀ (c : Char), c ∉ (['b', 'w', 'd', 'q', 'x', 's', '*'] : List Char) →
      ∀ (rest : List Char) (args : List Value) (acc : List (Option Nat)),
        formatGo ('%' :: c :: rest) none args acc = .error (.unrecognized c)) ∧
    (∀ (rest : List Char) (input : List Nat) (init : Nat) (hc : Char) (acc : List Value),
      scanGo ('%' :: rest) input init (some hc) acc = .error .halfAssert) ∧
    (∀ (c : Char), c ∉ (['?', 'b', 'w', 'd', 'q', 's', 'x', '*', '#'] : List Char) →
      ∀ (rest : List Char) (input : List Nat) (init : Nat) (acc : List Value),
        scanGo ('%' :: c :: rest) input init none acc = .error (.unrecognized c)) := by
  refine ⟨?_, ?_, ?_, ?_⟩
  · intro rest hc args acc
    rfl
  · intro c hmem rest args acc
    simp only [List.mem_cons, List.mem_singleton, not_or] at hmem
    obtain ⟨hb, hw, hd, hq, hx, hs, hstar, -⟩ := hmem
    have hdict : FORMAT_TYPE_LEN_DICT c = none := by
      unfold FORMAT_TYPE_LEN_DICT
      rw [if_neg hb, if_neg hw, if_neg hd, if_neg hq]
    have hft : formatTok c args = .error (.unrecognized c) := by
      unfold formatTok
      simp only [hdict]
      rw [if_neg (not_or.mpr ⟨hx, hs⟩), if_neg hstar]
    rw [formatGo]
    simp only [if_pos rfl]
    rw [hft]
    rfl
  · intro rest input init hc acc
    rfl
  · intro c hmem rest input init acc
    simp only [List.mem_cons, List.mem_singleton, not_or] at hmem
    obtain ⟨hq2, hb, hw, hd, hq, hs, hx, hstar, hhash, -⟩ := hmem
    have hdict : FORMAT_TYPE_LEN_DICT c = none := by
      unfold FORMAT_TYPE_LEN_DICT
      rw [if_neg hb, if_neg hw, if_neg hd, if_neg hq]
    have hst : scanTok c input = .error (.unrecognized c) := by
      unfold scanTok
      rw [if_neg hq2]
      simp only [hdict]
      rw [if_neg (not_or.mpr ⟨hs, hx⟩), if_neg hstar, if_neg hhash]
    rw [scanGo]
    simp only [if_pos rfl]
    rw [hst]
    rfl

/-- Witness for C6 with the pending half-digit f and the unrecognized
escaped character z. -/
theorem escape_marker_invariants_witness :
    formatGo ['%'] (some 'f') [] [] = .error .halfAssert ∧
    formatGo ['%', 'z'] none [] [] = .error (.unrecognized 'z') ∧
    scanGo ['%'] [] 0 (some 'f') [] = .error .halfAssert ∧
    scanGo ['%', 'z'] [] 0 none [] = .error (.unrecognized 'z') :=
  ⟨escape_marker_invariants.1 [] 'f' [] [],
   escape_marker_invariants.2.1 'z' (by decide) [] [] [],
   escape_marker_invariants.2.2.1 [] [] 0 'f' [],
   escape_marker_invariants.2.2.2 'z' (by decide) [] [] 0 []⟩

/-- C7: int2BCD fails exactly when the requested byte length exceeds 4 or
the value exceeds 10 ^ (2 * length) - 1; every in-range pair succeeds; in
particular int2BCD 1234 2 is 0x1234 = 4660, int2BCD 100 1 fails, and
int2BCD 0 1 is 0. -/
theorem int2BCD_fails_iff :
    (∀ (value length : Nat),
      exOk (int2BCD value length) = false ↔
        (4 < length ∨ 10 ^ (length * 2) - 1 < value)) ∧
    int2BCD 1234 2 = .ok 4660 ∧
    exOk (int2BCD 100 1) = false ∧
    int2BCD 0 1 = .ok 0 := by
  refine ⟨?_, ?_, ?_, ?_⟩
  · intro value length
    unfold int2BCD
    by_cases h1 : length > 4
    · rw [if_pos h1]
      simp [exOk]
      exact Or.inl h1
    · rw [if_neg h1]
      by_cases h2 : value > 10 ^ (length * 2) - 1
      · rw [if_pos h2]
        simp [exOk]
        exact Or.inr h2
      · rw [if_neg h2]
        simp [exOk]
        exact ⟨Nat.le_of_not_lt h1, Nat.le_of_not_lt h2⟩
  · have hp : packDigits 1234 = 4660 := by
      rw [packDigits_sum 8 1234 (by norm_num)]
      norm_num [Finset.sum_range_succ]
    rw [int2BCD_ok 1234 2 (by norm_num) (by norm_num), hp]
    norm_num [toInt32]
  · unfold int2BCD
    norm_num [exOk]
  · have hp : packDigits 0 = 0 := by
      rw [packDigits_sum 8 0 (by norm_num)]
      norm_num
    rw [int2BCD_ok 0 1 (by norm_num) (by norm_num), hp]
    norm_num [toInt32]

/-- Counterexample for C8: at the input 2 ^ 32 (which exceeds the 32-bit
domain the source comments document) BCD2int returns 0, because the JS
bitwise operators reduce the operand modulo 2 ^ 32, while the nibble sum
of the input itself is 10 ^ 8: the claim's formula fails for such inputs. -/
theorem BCD2int_wrap32_cex :
    BCD2int 4294967296 = 0 ∧
    (∑ i in Finset.range 9, 4294967296 / 16 ^ i % 16 * 10 ^ i) = 100000000 := by
  constructor
  · simp [BCD2int, BCD2intGo]
  · norm_num [Finset.sum_range_succ]

/-- C8, corrected: BCD2int is total and, for every non-negative input
below 2 ^ 32 (the documented 32-bit domain), returns the sum over nibble
positions of nibbleValue * 10 ^ position, nibbles least significant
first, with nibble values 10 to 15 accepted and contributing like any
other value rather than being rejected; in particular BCD2int 0x1234 is
1234. For inputs at or above 2 ^ 32 the 32-bit bitwise operators first
reduce the value modulo 2 ^ 32 (see the counterexample). -/
theorem BCD2int_nibble_sum :
    (∀ (bcd : Nat), bcd < 2 ^ 32 →
      BCD2int bcd = ∑ i in Finset.range 8, bcd / 16 ^ i % 16 * 10 ^ i) ∧
    BCD2int 4660 = 1234 := by
  constructor
  · exact fun bcd h => BCD2int_spec bcd h
  · rw [BCD2int_spec 4660 (by norm_num)]
    norm_num [Finset.sum_range_succ]

/-- Witness for C8 at the input 0x1234 = 4660. -/
theorem BCD2int_nibble_sum_witness :
    4660 < 2 ^ 32 ∧
    BCD2int 4660 = ∑ i in Finset.range 8, 4660 / 16 ^ i % 16 * 10 ^ i :=
  ⟨by norm_num, BCD2int_nibble_sum.1 4660 (by norm_num)⟩

/-- Counterexample for C9: the valid input pair 80000000 with length 4
(within bounds, since 80000000 is at most 10 ^ 8 - 1) produces a negative
number: packing the leading digit 8 shifts it into bit 31, and the JS
32-bit bitwise-or reads the accumulator back as a signed 32-bit value. -/
theorem int2BCD_negative_cex :
    int2BCD 80000000 4 = .ok (-2147483648) ∧ (-2147483648 : Int) < 0 := by
  constructor
  · have hp : packDigits 80000000 = 2147483648 := by
      rw [packDigits_sum 8 80000000 (by norm_num)]
      norm_num [Finset.sum_range_succ]
    rw [int2BCD_ok 80000000 4 (by norm_num) (by norm_num), hp]
    norm_num [toInt32]
  · norm_num

/-- C9, corrected: for every valid pair (length at most 4, value at most
10 ^ (2 * length) - 1) int2BCD succeeds and returns the packed-BCD
encoding of the value, each decimal digit in its 4-bit nibble with the
least significant digit lowest, reinterpreted as a signed 32-bit integer
(toInt32); the result is the plain unsigned packed value whenever that
value is below 2 ^ 31, but is negative when the leading nibble reaches
bit 31 (see the counterexample). -/
theorem int2BCD_packed_int32 (value length : Nat) (hl : length ≤ 4)
    (hv : value ≤ 10 ^ (length * 2) - 1) :
    int2BCD value length =
      .ok (toInt32 ((∑ i in Finset.range 8, value / 10 ^ i % 10 * 16 ^ i : Nat) : Int)) := by
  rw [int2BCD_ok value length hl hv]
  have hpos : 0 < 10 ^ (length * 2) := Nat.pos_pow_of_pos _ (by norm_num)
  have hub : 10 ^ (length * 2) ≤ 10 ^ 8 := Nat.pow_le_pow_right (by norm_num) (by omega)
  have h8 : value < 10 ^ 8 := by omega
  rw [packDigits_sum 8 value h8]

/-- Witness for C9 at 1234 with length 2: the packed value is 0x1234. -/
theorem int2BCD_packed_int32_witness :
    2 ≤ 4 ∧ (1234 : Nat) ≤ 10 ^ (2 * 2) - 1 ∧
    int2BCD 1234 2 =
      .ok (toInt32 ((∑ i in Finset.range 8, 1234 / 10 ^ i % 10 * 16 ^ i : Nat) : Int)) :=
  ⟨by norm_num, by norm_num, int2BCD_packed_int32 1234 2 (by norm_num) (by norm_num)⟩
